import Mathlib

/-!
Shallow embedding of `src/cellular_automata.py` (a one-dimensional elementary
cellular automaton on a ring of binary cells) together with proofs about it.

Python exceptions (failed `assert` statements, dictionary lookup misses) are
modelled by `Option`: `none` is the failure case.  Python integers are `ℕ`
(or `ℤ` where a negative value can reach the function), lists and tuples are
`List ℕ`, and the mapping dictionary is an association list looked up from
the front (its keys are pairwise distinct, so this agrees with Python's
last-write-wins dictionary semantics).
-/

namespace CellAuto

/-- Little-endian binary digits of a natural number, with explicit fuel so the
recursion is structural.  `binAux fuel m` is the digit list of `m` whenever
`m ≤ fuel`; it models the digit expansion performed by Python's `bin`. -/
def binAux : ℕ → ℕ → List ℕ
  | _, 0 => []
  | 0, _ + 1 => []
  | fuel + 1, m + 1 => ((m + 1) % 2) :: binAux fuel ((m + 1) / 2)

/-- The string `bin(m)` with its leading `0b` removed, as a digit list:
most-significant digit first, and the single digit `0` for `m = 0`. -/
def binStr (m : ℕ) : List ℕ := if m = 0 then [0] else (binAux m m).reverse

/-- Python's `str.zfill`: pad the digit list on the left with zeros up to
length `digits`. -/
def zfill (digits : ℕ) (s : List ℕ) : List ℕ :=
  List.replicate (digits - s.length) 0 ++ s

/-- The value computed by `binary(number, digits)` on the non-failing path:
`bin(number)` stripped of `0b` and zero-filled to `digits` places. -/
def binaryFn (m digits : ℕ) : List ℕ := zfill digits (binStr m)

/-- `binary(number, digits)` from the source: asserts
`0 <= number < 2**digits`, then returns the zero-filled binary digit tuple of
`number`, most-significant digit first.  `number` is `ℤ` because the assertion
also guards against negative input. -/
def binary (number : ℤ) (digits : ℕ) : Option (List ℕ) :=
  if 0 ≤ number ∧ number < 2 ^ digits then some (binaryFn number.toNat digits)
  else none

/-- A `Rule` as stored by `Rule.__init__` after its assertions pass: the rule
number and the neighborhood width `n`. -/
structure Rule where
  number : ℕ
  n : ℕ

/-- The validated constructor `Rule.__init__(number, n)`: asserts
`number < 2 ** (2 ** n)` and `n % 2 == 1`, then stores both fields. -/
def Rule.make (number n : ℕ) : Option Rule :=
  if number < 2 ^ 2 ^ n ∧ n % 2 = 1 then some ⟨number, n⟩ else none

/-- Lookup in an association list, modelling Python's `mapping[key]`:
`none` models a `KeyError`.  The mapping built by the source has pairwise
distinct keys, so first-match lookup agrees with dictionary semantics. -/
def dictLookup : List (List ℕ × ℕ) → List ℕ → Option ℕ
  | [], _ => none
  | (k, v) :: rest, key => if key = k then some v else dictLookup rest key

/-- `Rule._get_mapping`: zip the pattern indices `0, …, 2^n - 1` against the
`2^n`-digit binary expansion of the rule number, keying each entry by the
`n`-digit binary expansion of the pattern index.  Inside a validated rule both
calls to `binary` succeed, so the `Option` is discharged with `getD []`. -/
def Rule.get_mapping (r : Rule) : List (List ℕ × ℕ) :=
  ((List.range (2 ^ r.n)).zip ((binary r.number (2 ^ r.n)).getD [])).map
    fun p => ((binary (p.1 : ℤ) r.n).getD [], p.2)

/-- `Rule.get_next_cell(interval_cells)`: asserts the interval has length
`n`, then looks the tuple up in the mapping. -/
def Rule.get_next_cell (r : Rule) (interval_cells : List ℕ) : Option ℕ :=
  if interval_cells.length = r.n then dictLookup r.get_mapping interval_cells
  else none

/-- The mutable state of `CellularAutomata`: the ring size and the cells. -/
structure CellularAutomata where
  size : ℕ
  cells : List ℕ

namespace CellularAutomata

/-- `CellularAutomata.init_zeroes`: set every cell to zero. -/
def init_zeroes (ca : CellularAutomata) : CellularAutomata :=
  { ca with cells := List.replicate ca.size 0 }

/-- `CellularAutomata.__init__(size)`: store the size and zero the cells. -/
def make (size : ℕ) : CellularAutomata :=
  init_zeroes { size := size, cells := [] }

/-- The `size` property setter: store the new size, then `init_zeroes`. -/
def set_size (ca : CellularAutomata) (value : ℕ) : CellularAutomata :=
  init_zeroes { ca with size := value }

/-- `CellularAutomata.init_single(pos)`: zero all cells, then set the cell at
`pos` (default: `size // 2`) to one; asserts `0 <= pos < size` when an
explicit integer position is given. -/
def init_single (ca : CellularAutomata) (pos : Option ℤ) :
    Option CellularAutomata :=
  match pos with
  | none => some { ca with cells := (List.replicate ca.size 0).set (ca.size / 2) 1 }
  | some p =>
    if 0 ≤ p ∧ p < (ca.size : ℤ) then
      some { ca with cells := (List.replicate ca.size 0).set p.toNat 1 }
    else none

/-- `CellularAutomata.randomize`: each cell is drawn from the random source,
modelled as an injected stream of bits, one per position, so the cells become
`random.randint(0, 1)` values in index order. -/
def randomize (ca : CellularAutomata) (bits : ℕ → Bool) : CellularAutomata :=
  { ca with cells := (List.range ca.size).map fun i => if bits i then 1 else 0 }

/-- Python's `rel_i % self.size` applied to a (possibly negative) relative
index: `Int.emod` agrees with Python `%` on a positive modulus. -/
def wrapIdx (size : ℕ) (rel : ℤ) : ℕ := (rel % (size : ℤ)).toNat

/-- The tuple `interval_cells` built inside `next_generation` for position
`i`: the cells at relative indices `i - margin, …, i + margin`, each taken
modulo the ring size. -/
def interval_cells (cells : List ℕ) (size margin i : ℕ) : List ℕ :=
  (List.range (2 * margin + 1)).map fun (k : ℕ) =>
    cells.getD (wrapIdx size ((i : ℤ) - (margin : ℤ) + (k : ℤ))) 0

/-- Collect a list of optional values, failing if any entry failed; models a
loop whose body may raise. -/
def seqOption : List (Option ℕ) → Option (List ℕ)
  | [] => some []
  | none :: _ => none
  | some a :: rest => (seqOption rest).map fun l => a :: l

/-- `CellularAutomata.next_generation(rule)`: for every position of the ring,
look up the neighborhood of width `rule.n` centred there in the rule's
mapping, then replace the whole cell list with the collected results. -/
def next_generation (ca : CellularAutomata) (r : Rule) :
    Option CellularAutomata :=
  (seqOption ((List.range ca.size).map fun i =>
      r.get_next_cell (interval_cells ca.cells ca.size (r.n / 2) i))).map
    fun next_cells => { ca with cells := next_cells }

/-- The body of the `while True` loop in `run`, with explicit fuel: emit the
current cells, advance one generation, increment the iteration counter, and
stop when `iteration > iteration_limit > 0`.  Returns the emitted states and
the final automaton when the loop breaks within `fuel` iterations, `none`
when it does not (or when an advance fails). -/
def runAux (r : Rule) (limit : ℤ) :
    ℕ → CellularAutomata → ℕ → Option (List (List ℕ) × CellularAutomata)
  | 0, _, _ => none
  | fuel + 1, ca, iteration =>
    match next_generation ca r with
    | none => none
    | some ca2 =>
      if ((iteration : ℤ) + 1 > limit ∧ limit > 0) then some ([ca.cells], ca2)
      else (runAux r limit fuel ca2 (iteration + 1)).map
        fun p => (ca.cells :: p.1, p.2)

/-- `CellularAutomata.run(rule, iteration_limit)`: an omitted limit defaults
to `self.size // 2`; then the emit-and-advance loop runs from iteration 0. -/
def run (ca : CellularAutomata) (r : Rule) (iteration_limit : Option ℤ)
    (fuel : ℕ) : Option (List (List ℕ) × CellularAutomata) :=
  runAux r (iteration_limit.getD ((ca.size / 2 : ℕ) : ℤ)) fuel ca 0

end CellularAutomata

/-- The mathematical `width`-digit binary representation of `m`, most
significant digit first: digit `j` is `m / 2 ^ (width - 1 - j) % 2`.  This is
the specification-side description of a zero-padded big-endian binary tuple,
used to state the claims about `binary` and the rule mapping. -/
def msbDigits (m width : ℕ) : List ℕ :=
  (List.range width).map fun j => m / 2 ^ (width - 1 - j) % 2

/-! ### Facts about the binary conversion helpers -/

theorem binAux_eq_digits : ∀ fuel m, m ≤ fuel → binAux fuel m = Nat.digits 2 m := by
  intro fuel
  induction fuel with
  | zero =>
    intro m hm
    have hm0 : m = 0 := Nat.le_zero.mp hm
    subst hm0; rw [Nat.digits_zero]; rfl
  | succ f ih =>
    intro m hm
    match m with
    | 0 => rw [Nat.digits_zero]; rfl
    | k + 1 =>
      have h2 : (k + 1) / 2 ≤ f := by omega
      rw [show binAux (f + 1) (k + 1) = ((k + 1) % 2) :: binAux f ((k + 1) / 2) from rfl,
        ih _ h2, Nat.digits_def' (by norm_num : (1 : ℕ) < 2) (Nat.succ_pos k)]

theorem binStr_eq (m : ℕ) :
    binStr m = if m = 0 then [0] else (Nat.digits 2 m).reverse := by
  unfold binStr
  rcases Nat.eq_zero_or_pos m with h | h
  · simp [h]
  · rw [if_neg (by omega), if_neg (by omega), binAux_eq_digits m m le_rfl]

theorem binStr_le_one (m : ℕ) : ∀ x ∈ binStr m, x ≤ 1 := by
  intro x hx
  rw [binStr_eq] at hx
  rcases Nat.eq_zero_or_pos m with h | h
  · rw [if_pos h] at hx
    simp at hx; omega
  · rw [if_neg (by omega), List.mem_reverse] at hx
    have := Nat.digits_lt_base (by norm_num) hx
    omega

theorem ofDigits_binStr_reverse (m : ℕ) :
    Nat.ofDigits 2 (binStr m).reverse = m := by
  rw [binStr_eq]
  rcases Nat.eq_zero_or_pos m with h | h
  · rw [if_pos h, h]; rfl
  · rw [if_neg (by omega), List.reverse_reverse, Nat.ofDigits_digits]

theorem binStr_length_le (m w : ℕ) (hm : m < 2 ^ w) (hw : 1 ≤ w) :
    (binStr m).length ≤ w := by
  rw [binStr_eq]
  rcases Nat.eq_zero_or_pos m with h | h
  · rw [if_pos h]; simpa using hw
  · rw [if_neg (by omega), List.length_reverse]
    have hle : 2 ^ (Nat.digits 2 m).length ≤ 2 * m :=
      Nat.base_pow_length_digits_le 2 m (by norm_num) (by omega)
    have h2 : 2 * m < 2 ^ (w + 1) := by
      rw [pow_succ, mul_comm]; omega
    have : 2 ^ (Nat.digits 2 m).length < 2 ^ (w + 1) := lt_of_le_of_lt hle h2
    have := (Nat.pow_lt_pow_iff_right (by norm_num : 1 < 2)).mp this
    omega

theorem ofDigits_replicate_zero (b : ℕ) : ∀ k, Nat.ofDigits b (List.replicate k 0) = 0
  | 0 => rfl
  | k + 1 => by
    rw [List.replicate_succ, Nat.ofDigits_cons, ofDigits_replicate_zero b k]
    simp

theorem ofDigits_div_pow_mod :
    ∀ L : List ℕ, (∀ x ∈ L, x ≤ 1) → ∀ k, Nat.ofDigits 2 L / 2 ^ k % 2 = L.getD k 0 := by
  intro L
  induction L with
  | nil => intro _ k; simp [Nat.ofDigits_nil]
  | cons d T ih =>
    intro h k
    have hd : d ≤ 1 := h d (List.mem_cons_self d T)
    have hT : ∀ x ∈ T, x ≤ 1 := fun x hx => h x (List.mem_cons_of_mem d hx)
    match k with
    | 0 =>
      rw [Nat.ofDigits_cons, List.getD_cons_zero, pow_zero, Nat.div_one]
      omega
    | k + 1 =>
      rw [Nat.ofDigits_cons, List.getD_cons_succ]
      have h1 : (↑d + 2 * Nat.ofDigits 2 T : ℕ) / 2 ^ (k + 1)
          = Nat.ofDigits 2 T / 2 ^ k := by
        rw [pow_succ, mul_comm (2 ^ k) 2, ← Nat.div_div_eq_div_mul]
        have h2 : (↑d + 2 * Nat.ofDigits 2 T : ℕ) / 2 = Nat.ofDigits 2 T := by omega
        rw [h2]
      rw [h1, ih hT k]

theorem msbDigits_length (m w : ℕ) : (msbDigits m w).length = w := by
  simp [msbDigits]

theorem msbDigits_getElem (m w j : ℕ) (hj : j < (msbDigits m w).length) :
    (msbDigits m w)[j] = m / 2 ^ (w - 1 - j) % 2 := by
  simp [msbDigits]

theorem msbDigits_le_one (m w : ℕ) : ∀ x ∈ msbDigits m w, x ≤ 1 := by
  intro x hx
  rw [msbDigits, List.mem_map] at hx
  obtain ⟨j, _, hj⟩ := hx
  omega

theorem binaryFn_length (m w : ℕ) (hm : m < 2 ^ w) (hw : 1 ≤ w) :
    (binaryFn m w).length = w := by
  have := binStr_length_le m w hm hw
  simp only [binaryFn, zfill, List.length_append, List.length_replicate]
  omega

theorem binaryFn_reverse (m w : ℕ) :
    (binaryFn m w).reverse
      = (binStr m).reverse ++ List.replicate (w - (binStr m).length) 0 := by
  simp [binaryFn, zfill, List.reverse_append]

theorem ofDigits_binaryFn_reverse (m w : ℕ) :
    Nat.ofDigits 2 (binaryFn m w).reverse = m := by
  rw [binaryFn_reverse, Nat.ofDigits_append, ofDigits_binStr_reverse,
    ofDigits_replicate_zero]
  simp

theorem binaryFn_le_one (m w : ℕ) : ∀ x ∈ binaryFn m w, x ≤ 1 := by
  intro x hx
  rw [binaryFn, zfill, List.mem_append] at hx
  rcases hx with hx | hx
  · have := List.eq_of_mem_replicate hx; omega
  · exact binStr_le_one m x hx

theorem binaryFn_reverse_le_one (m w : ℕ) : ∀ x ∈ (binaryFn m w).reverse, x ≤ 1 := by
  intro x hx
  exact binaryFn_le_one m w x (List.mem_reverse.mp hx)

theorem getD_reverse (l : List ℕ) (j : ℕ) (hj : j < l.length) :
    l.reverse.getD (l.length - 1 - j) 0 = l.getD j 0 := by
  have h1 : l.length - 1 - j < l.length := by omega
  have hj2 : l.length - 1 - (l.length - 1 - j) = j := by omega
  rw [List.getD_eq_getElem?_getD, List.getD_eq_getElem?_getD,
    List.getElem?_reverse h1, hj2]

theorem binaryFn_eq_msbDigits (m w : ℕ) (hm : m < 2 ^ w) (hw : 1 ≤ w) :
    binaryFn m w = msbDigits m w := by
  have hlen : (binaryFn m w).length = w := binaryFn_length m w hm hw
  apply List.ext_getElem
  · rw [hlen, msbDigits_length]
  · intro j h1 h2
    rw [msbDigits_getElem]
    have e0 : (binaryFn m w)[j] = (binaryFn m w).getD j 0 := by
      rw [List.getD_eq_getElem?_getD, List.getElem?_eq_getElem h1,
        Option.getD_some]
    rw [e0, ← getD_reverse (binaryFn m w) j h1, hlen,
      ← ofDigits_div_pow_mod _ (binaryFn_reverse_le_one m w) (w - 1 - j),
      ofDigits_binaryFn_reverse]

theorem ofDigits_msbDigits (m w : ℕ) (hm : m < 2 ^ w) (hw : 1 ≤ w) :
    Nat.ofDigits 2 (msbDigits m w).reverse = m := by
  rw [← binaryFn_eq_msbDigits m w hm hw, ofDigits_binaryFn_reverse]

theorem msbDigits_ofDigits (l : List ℕ) (hl : ∀ x ∈ l, x ≤ 1) :
    msbDigits (Nat.ofDigits 2 l.reverse) l.length = l := by
  have hrev : ∀ x ∈ l.reverse, x ≤ 1 := fun x hx => hl x (List.mem_reverse.mp hx)
  apply List.ext_getElem
  · rw [msbDigits_length]
  · intro j h1 h2
    rw [msbDigits_getElem]
    have hj : j < l.length := h2
    rw [ofDigits_div_pow_mod _ hrev (l.length - 1 - j), getD_reverse l j hj,
      List.getD_eq_getElem?_getD, List.getElem?_eq_getElem hj, Option.getD_some]

/-! ### Association-list lookup -/

theorem dictLookup_cons (k : List ℕ) (v : ℕ) (rest : List (List ℕ × ℕ))
    (key : List ℕ) :
    dictLookup ((k, v) :: rest) key = if key = k then some v else dictLookup rest key := rfl

theorem dictLookup_append_some :
    ∀ (A B : List (List ℕ × ℕ)) (key : List ℕ) (v : ℕ),
      dictLookup A key = some v → dictLookup (A ++ B) key = some v := by
  intro A B key v
  induction A with
  | nil => intro h; exact absurd h (by simp [dictLookup])
  | cons p T ih =>
    obtain ⟨k, w⟩ := p
    intro h
    rw [List.cons_append]
    by_cases hk : key = k
    · rw [dictLookup_cons, if_pos hk] at h ⊢
      exact h
    · rw [dictLookup_cons, if_neg hk] at h ⊢
      exact ih h

theorem dictLookup_append_none :
    ∀ (A B : List (List ℕ × ℕ)) (key : List ℕ),
      dictLookup A key = none → dictLookup (A ++ B) key = dictLookup B key := by
  intro A B key
  induction A with
  | nil => intro _; rfl
  | cons p T ih =>
    obtain ⟨k, w⟩ := p
    intro h
    rw [List.cons_append]
    by_cases hk : key = k
    · rw [dictLookup_cons, if_pos hk] at h
      exact absurd h (by simp)
    · rw [dictLookup_cons, if_neg hk] at h ⊢
      exact ih h

theorem dictLookup_eq_none :
    ∀ (A : List (List ℕ × ℕ)) (key : List ℕ),
      (∀ p ∈ A, key ≠ p.1) → dictLookup A key = none := by
  intro A key
  induction A with
  | nil => intro _; rfl
  | cons p T ih =>
    obtain ⟨k, w⟩ := p
    intro h
    rw [dictLookup_cons, if_neg (h (k, w) (List.mem_cons_self _ _))]
    exact ih fun q hq => h q (List.mem_cons_of_mem _ hq)

theorem dictLookup_mapRange (f : ℕ → List ℕ) (g : ℕ → ℕ) :
    ∀ N i : ℕ, i < N → (∀ j, j < N → f j = f i → j = i) →
      dictLookup ((List.range N).map fun j => (f j, g j)) (f i) = some (g i) := by
  intro N
  induction N with
  | zero => intro i hi _; omega
  | succ M ih =>
    intro i hi hinj
    rw [List.range_succ, List.map_append]
    by_cases hiM : i < M
    · exact dictLookup_append_some _ _ _ _
        (ih i hiM fun j hj hf => hinj j (by omega) hf)
    · have hi2 : i = M := by omega
      subst hi2
      have hnone : dictLookup ((List.range i).map fun j => (f j, g j)) (f i) = none := by
        apply dictLookup_eq_none
        intro p hp
        rw [List.mem_map] at hp
        obtain ⟨j, hj, rfl⟩ := hp
        rw [List.mem_range] at hj
        intro he
        have : j = i := hinj j (by omega) he.symm
        omega
      rw [dictLookup_append_none _ _ _ hnone]
      simp [dictLookup_cons]

/-! ### The rule mapping -/

theorem binary_natCast_eq (m w : ℕ) (hm : m < 2 ^ w) :
    binary (m : ℤ) w = some (binaryFn m w) := by
  rw [binary, if_pos]
  · rw [Int.toNat_ofNat]
  · exact ⟨Int.natCast_nonneg _, by exact_mod_cast hm⟩

theorem get_mapping_eq (r : Rule) (hnum : r.number < 2 ^ 2 ^ r.n)
    (hodd : r.n % 2 = 1) :
    r.get_mapping = (List.range (2 ^ r.n)).map
      fun i => (msbDigits i r.n, r.number / 2 ^ (2 ^ r.n - 1 - i) % 2) := by
  have hn1 : 1 ≤ r.n := by omega
  have hw1 : 1 ≤ 2 ^ r.n := Nat.one_le_two_pow
  rw [Rule.get_mapping, binary_natCast_eq _ _ hnum, Option.getD_some,
    binaryFn_eq_msbDigits _ _ hnum hw1]
  have hid : List.range (2 ^ r.n) = (List.range (2 ^ r.n)).map id :=
    (List.map_id _).symm
  rw [msbDigits]
  nth_rewrite 1 [hid]
  rw [List.zip_map' id (fun j => r.number / 2 ^ (2 ^ r.n - 1 - j) % 2), List.map_map]
  apply List.map_congr_left
  intro i hi
  rw [List.mem_range] at hi
  show ((binary (i : ℤ) r.n).getD [], _) = _
  rw [binary_natCast_eq _ _ hi, Option.getD_some, binaryFn_eq_msbDigits i r.n hi hn1]

theorem msbDigits_inj (w : ℕ) (hw : 1 ≤ w) :
    ∀ j i, j < 2 ^ w → i < 2 ^ w → msbDigits j w = msbDigits i w → j = i := by
  intro j i hj hi he
  have h1 := ofDigits_msbDigits j w hj hw
  have h2 := ofDigits_msbDigits i w hi hw
  rw [he, h2] at h1
  omega

theorem dictLookup_get_mapping (r : Rule) (hnum : r.number < 2 ^ 2 ^ r.n)
    (hodd : r.n % 2 = 1) (i : ℕ) (hi : i < 2 ^ r.n) :
    dictLookup r.get_mapping (msbDigits i r.n)
      = some (r.number / 2 ^ (2 ^ r.n - 1 - i) % 2) := by
  have hn1 : 1 ≤ r.n := by omega
  rw [get_mapping_eq r hnum hodd]
  exact dictLookup_mapRange _ _ _ i hi
    fun j hj hf => msbDigits_inj r.n hn1 j i hj hi hf

theorem dictLookup_total (r : Rule) (hnum : r.number < 2 ^ 2 ^ r.n)
    (hodd : r.n % 2 = 1) (l : List ℕ) (hlen : l.length = r.n)
    (hbin : ∀ x ∈ l, x ≤ 1) :
    ∃ v, dictLookup r.get_mapping l = some v ∧ v ≤ 1 := by
  have hn1 : 1 ≤ r.n := by omega
  have hkey : msbDigits (Nat.ofDigits 2 l.reverse) r.n = l := by
    rw [← hlen]
    exact msbDigits_ofDigits l hbin
  have hlt : Nat.ofDigits 2 l.reverse < 2 ^ r.n := by
    rw [← hlen, ← List.length_reverse]
    exact Nat.ofDigits_lt_base_pow_length (by norm_num)
      fun x hx => by have := hbin x (List.mem_reverse.mp hx); omega
  refine ⟨r.number / 2 ^ (2 ^ r.n - 1 - Nat.ofDigits 2 l.reverse) % 2, ?_, ?_⟩
  · have hl2 := dictLookup_get_mapping r hnum hodd (Nat.ofDigits 2 l.reverse) hlt
    rw [hkey] at hl2
    exact hl2
  · omega

/-! ### Next-cell lookup -/

theorem get_next_cell_of_length_ne (r : Rule) (l : List ℕ)
    (h : l.length ≠ r.n) : r.get_next_cell l = none := by
  rw [Rule.get_next_cell, if_neg h]

theorem get_next_cell_total (r : Rule) (hnum : r.number < 2 ^ 2 ^ r.n)
    (hodd : r.n % 2 = 1) (l : List ℕ) (hlen : l.length = r.n)
    (hbin : ∀ x ∈ l, x ≤ 1) :
    ∃ v, r.get_next_cell l = some v ∧ v ≤ 1 := by
  obtain ⟨v, hv, hv1⟩ := dictLookup_total r hnum hodd l hlen hbin
  exact ⟨v, by rw [Rule.get_next_cell, if_pos hlen]; exact hv, hv1⟩

/-! ### Neighborhood intervals -/

theorem getD_le_one (l : List ℕ) (h : ∀ x ∈ l, x ≤ 1) (j : ℕ) : l.getD j 0 ≤ 1 := by
  rcases Nat.lt_or_ge j l.length with hj | hj
  · rw [List.getD_eq_getElem?_getD, List.getElem?_eq_getElem hj, Option.getD_some]
    exact h _ (List.getElem_mem hj)
  · rw [List.getD_eq_getElem?_getD, List.getElem?_eq_none hj, Option.getD_none]
    exact Nat.zero_le 1

namespace CellularAutomata

theorem interval_cells_length (cells : List ℕ) (size margin i : ℕ) :
    (interval_cells cells size margin i).length = 2 * margin + 1 := by
  rw [interval_cells, List.length_map, List.length_range]

theorem interval_cells_le_one (cells : List ℕ) (h : ∀ x ∈ cells, x ≤ 1)
    (size margin i : ℕ) : ∀ x ∈ interval_cells cells size margin i, x ≤ 1 := by
  intro x hx
  rw [interval_cells, List.mem_map] at hx
  obtain ⟨k, _, rfl⟩ := hx
  exact getD_le_one cells h _

theorem interval_cells_getElem (cells : List ℕ) (size margin i k : ℕ)
    (hk : k < (interval_cells cells size margin i).length) :
    (interval_cells cells size margin i)[k]
      = cells.getD (wrapIdx size ((i : ℤ) - (margin : ℤ) + (k : ℤ))) 0 := by
  simp only [interval_cells, List.getElem_map, List.getElem_range]

theorem wrapIdx_lt (size : ℕ) (hS : 0 < size) (rel : ℤ) : wrapIdx size rel < size := by
  rw [wrapIdx]
  have h0 : (size : ℤ) ≠ 0 := by exact_mod_cast hS.ne'
  have h1 : 0 ≤ rel % (size : ℤ) := Int.emod_nonneg rel h0
  have h2 : rel % (size : ℤ) < size := Int.emod_lt_of_pos rel (by exact_mod_cast hS)
  omega

theorem wrapIdx_neg_one (size : ℕ) (hS : 0 < size) : wrapIdx size (-1) = size - 1 := by
  rw [wrapIdx]
  have e1 : (-1 : ℤ) = ((size : ℤ) - 1) + (size : ℤ) * (-1) := by ring
  rw [e1, Int.add_mul_emod_self_left,
    Int.emod_eq_of_lt (by omega) (by omega)]
  omega

theorem wrapIdx_self (size : ℕ) : wrapIdx size (size : ℤ) = 0 := by
  rw [wrapIdx, Int.emod_self]
  rfl

/-! ### Collecting the next generation -/

theorem seqOption_spec :
    ∀ (os : List (Option ℕ)) (vs : List ℕ), seqOption os = some vs →
      vs.length = os.length
      ∧ (∀ i, i < os.length → os.getD i none = some (vs.getD i 0))
      ∧ (∀ v ∈ vs, some v ∈ os) := by
  intro os
  induction os with
  | nil =>
    intro vs h
    have hv : vs = [] := (Option.some_inj.mp h).symm
    subst hv
    refine ⟨rfl, ?_, ?_⟩
    · intro i hi; exact absurd hi (by simp)
    · intro v hv; exact absurd hv (by simp)
  | cons o T ih =>
    intro vs h
    match o with
    | none => exact absurd h (by simp [seqOption])
    | some a =>
      have e : seqOption (some a :: T) = (seqOption T).map fun l => a :: l := rfl
      rw [e] at h
      cases hT : seqOption T with
      | none => rw [hT] at h; exact absurd h (by simp)
      | some ws =>
        rw [hT] at h
        have hv : vs = a :: ws := (Option.some_inj.mp h).symm
        subst hv
        obtain ⟨hlen, hget, hmem⟩ := ih ws hT
        refine ⟨by simp [hlen], ?_, ?_⟩
        · intro i hi
          match i with
          | 0 => rfl
          | i + 1 =>
            rw [List.getD_cons_succ, List.getD_cons_succ]
            exact hget i (by simpa using hi)
        · intro v hv
          rcases List.mem_cons.mp hv with h1 | h1
          · subst h1; exact List.mem_cons_self _ _
          · exact List.mem_cons_of_mem _ (hmem v h1)

theorem seqOption_isSome :
    ∀ os : List (Option ℕ), (∀ o ∈ os, ∃ v, o = some v) →
      ∃ vs, seqOption os = some vs := by
  intro os
  induction os with
  | nil => intro _; exact ⟨[], rfl⟩
  | cons o T ih =>
    intro h
    obtain ⟨v, hv⟩ := h o (List.mem_cons_self _ _)
    obtain ⟨ws, hws⟩ := ih fun p hp => h p (List.mem_cons_of_mem _ hp)
    subst hv
    refine ⟨v :: ws, ?_⟩
    have e : seqOption (some v :: T) = (seqOption T).map fun l => v :: l := rfl
    rw [e, hws]
    rfl

theorem next_generation_spec (ca : CellularAutomata) (r : Rule)
    (hnum : r.number < 2 ^ 2 ^ r.n) (hodd : r.n % 2 = 1)
    (_hlen : ca.cells.length = ca.size) (hbin : ∀ x ∈ ca.cells, x ≤ 1) :
    ∃ nc, ca.next_generation r = some { ca with cells := nc }
      ∧ nc.length = ca.size ∧ (∀ x ∈ nc, x ≤ 1)
      ∧ ∀ i, i < ca.size →
          r.get_next_cell (interval_cells ca.cells ca.size (r.n / 2) i)
            = some (nc.getD i 0) := by
  set os := (List.range ca.size).map
    (fun i => r.get_next_cell (interval_cells ca.cells ca.size (r.n / 2) i)) with hos
  have hall : ∀ o ∈ os, ∃ v, o = some v := by
    intro o ho
    rw [hos, List.mem_map] at ho
    obtain ⟨i, hi, rfl⟩ := ho
    have hlen2 : (interval_cells ca.cells ca.size (r.n / 2) i).length = r.n := by
      rw [interval_cells_length]; omega
    obtain ⟨v, hv, _⟩ := get_next_cell_total r hnum hodd _ hlen2
      (interval_cells_le_one ca.cells hbin _ _ _)
    exact ⟨v, hv⟩
  obtain ⟨vs, hvs⟩ := seqOption_isSome os hall
  obtain ⟨hvslen, hget, hmem⟩ := seqOption_spec os vs hvs
  have hoslen : os.length = ca.size := by rw [hos]; simp
  refine ⟨vs, ?_, by omega, ?_, ?_⟩
  · show (seqOption os).map
        (fun next_cells => ({ ca with cells := next_cells } : CellularAutomata))
      = some { ca with cells := vs }
    rw [hvs]
    rfl
  · intro v hv
    have hsome := hmem v hv
    rw [hos, List.mem_map] at hsome
    obtain ⟨i, hi, hei⟩ := hsome
    have hlen2 : (interval_cells ca.cells ca.size (r.n / 2) i).length = r.n := by
      rw [interval_cells_length]; omega
    obtain ⟨w, hw, hw1⟩ := get_next_cell_total r hnum hodd _ hlen2
      (interval_cells_le_one ca.cells hbin _ _ _)
    rw [hw] at hei
    have : w = v := Option.some_inj.mp hei
    omega
  · intro i hi
    have hosi : os.getD i none
        = r.get_next_cell (interval_cells ca.cells ca.size (r.n / 2) i) := by
      rw [hos, List.getD_eq_getElem?_getD,
        List.getElem?_eq_getElem (by simpa using hi), Option.getD_some,
        List.getElem_map, List.getElem_range]
    have := hget i (by omega)
    rw [hosi] at this
    exact this

/-! ### The run loop -/

theorem runAux_succ (r : Rule) (L : ℤ) (fuel : ℕ) (ca : CellularAutomata)
    (it : ℕ) :
    runAux r L (fuel + 1) ca it
      = match ca.next_generation r with
        | none => none
        | some ca2 =>
          if ((it : ℤ) + 1 > L ∧ L > 0) then some ([ca.cells], ca2)
          else (runAux r L fuel ca2 (it + 1)).map
            fun p => (ca.cells :: p.1, p.2) := rfl

theorem runAux_none_of_nonpos (r : Rule) (L : ℤ) (hL : L ≤ 0) :
    ∀ (fuel : ℕ) (ca : CellularAutomata) (it : ℕ), runAux r L fuel ca it = none := by
  intro fuel
  induction fuel with
  | zero => intro ca it; rfl
  | succ f ih =>
    intro ca it
    rw [runAux_succ]
    cases hng : ca.next_generation r with
    | none => rfl
    | some ca2 =>
      dsimp only
      rw [if_neg (by omega : ¬ ((it : ℤ) + 1 > L ∧ L > 0)), ih ca2 (it + 1)]
      rfl

theorem runAux_length (r : Rule) (m : ℕ) (hm : 0 < m) :
    ∀ (fuel : ℕ) (ca : CellularAutomata) (it : ℕ) (tr : List (List ℕ))
      (fin : CellularAutomata), it ≤ m →
      runAux r (m : ℤ) fuel ca it = some (tr, fin) → tr.length + it = m + 1 := by
  intro fuel
  induction fuel with
  | zero =>
    intro ca it tr fin _ h
    rw [show runAux r (m : ℤ) 0 ca it = none from rfl] at h
    simp at h
  | succ f ih =>
    intro ca it tr fin hit h
    rw [runAux_succ] at h
    cases hng : ca.next_generation r with
    | none => rw [hng] at h; simp at h
    | some ca2 =>
      rw [hng] at h
      dsimp only at h
      by_cases hbr : ((it : ℤ) + 1 > (m : ℤ) ∧ (m : ℤ) > 0)
      · rw [if_pos hbr] at h
        have hpair : ([ca.cells], ca2) = (tr, fin) := Option.some_inj.mp h
        have htr : tr = [ca.cells] := (congrArg Prod.fst hpair).symm
        subst htr
        have hbr1 := hbr.1
        simp only [List.length_singleton]
        omega
      · rw [if_neg hbr] at h
        cases hrec : runAux r (m : ℤ) f ca2 (it + 1) with
        | none => rw [hrec] at h; simp at h
        | some p =>
          rw [hrec] at h
          obtain ⟨trr, finn⟩ := p
          have hpair : (ca.cells :: trr, finn) = (tr, fin) := Option.some_inj.mp h
          have htr : tr = ca.cells :: trr := (congrArg Prod.fst hpair).symm
          subst htr
          have hit2 : it + 1 ≤ m := by omega
          have hlen := ih ca2 (it + 1) trr finn hit2 hrec
          simp only [List.length_cons]
          omega

theorem runAux_some (r : Rule) (hnum : r.number < 2 ^ 2 ^ r.n)
    (hodd : r.n % 2 = 1) (m : ℕ) (hm : 0 < m) :
    ∀ (fuel it : ℕ) (ca : CellularAutomata),
      ca.cells.length = ca.size → (∀ x ∈ ca.cells, x ≤ 1) →
      it ≤ m → m + 1 ≤ fuel + it →
      ∃ tr fin, runAux r (m : ℤ) fuel ca it = some (tr, fin) := by
  intro fuel
  induction fuel with
  | zero => intro it ca _ _ h1 h2; omega
  | succ f ih =>
    intro it ca hlen hbin hit hfuel
    obtain ⟨nc, hng, hnclen, hncbin, _⟩ :=
      next_generation_spec ca r hnum hodd hlen hbin
    rw [runAux_succ, hng]
    dsimp only
    by_cases hbr : ((it : ℤ) + 1 > (m : ℤ) ∧ (m : ℤ) > 0)
    · rw [if_pos hbr]
      exact ⟨[ca.cells], { ca with cells := nc }, rfl⟩
    · rw [if_neg hbr]
      have hit2 : it + 1 ≤ m := by omega
      obtain ⟨tr, fin, hrec⟩ := ih (it + 1) { ca with cells := nc }
        hnclen hncbin hit2 (by omega)
      rw [hrec]
      exact ⟨ca.cells :: tr, fin, rfl⟩

end CellularAutomata

theorem interval_cells_getD (cells : List ℕ) (size margin i k : ℕ)
    (hk : k < 2 * margin + 1) :
    (CellularAutomata.interval_cells cells size margin i).getD k 0
      = cells.getD (CellularAutomata.wrapIdx size
          ((i : ℤ) - (margin : ℤ) + (k : ℤ))) 0 := by
  rw [List.getD_eq_getElem?_getD,
    List.getElem?_eq_getElem
      (by rw [CellularAutomata.interval_cells_length]; exact hk),
    Option.getD_some, CellularAutomata.interval_cells_getElem]

theorem replicate_getD_zero (S j : ℕ) : (List.replicate S 0).getD j 0 = 0 := by
  rcases Nat.lt_or_ge j S with hj | hj
  · rw [List.getD_eq_getElem?_getD,
      List.getElem?_eq_getElem (by simpa using hj), Option.getD_some,
      List.getElem_replicate]
  · rw [List.getD_eq_getElem?_getD, List.getElem?_eq_none (by simpa using hj),
      Option.getD_none]

/-! ### Claims -/

/-- C5, counterexample to the claim as stated: at `number = 0`, `digits = 0`
the precondition `0 ≤ number < 2 ^ digits` holds, yet `binary` returns a
tuple of one digit rather than `digits = 0` digits, because Python's `bin(0)`
already has one digit and `zfill` never truncates. -/
theorem C5_counterexample :
    (0 : ℤ) ≤ 0 ∧ (0 : ℤ) < 2 ^ (0 : ℕ)
      ∧ binary 0 0 = some [0] ∧ ([0] : List ℕ).length ≠ 0 := by
  refine ⟨by decide, by decide, by decide, by decide⟩

/-- C5, amended: for `digits ≥ 1`, `binary(number, digits)` returns the
ordered tuple of exactly `digits` binary values giving the binary
representation of `number`, most-significant digit first and zero-padded,
whenever `0 ≤ number < 2 ^ digits`, and fails when `number` is negative or
`number ≥ 2 ^ digits`; in particular `binary(5, 4) = (0,1,0,1)`,
`binary(0, 1) = (0,)` and `binary(2, 1)` fails. -/
theorem C5_binary (number : ℤ) (digits : ℕ) (h0 : 0 ≤ number)
    (h2 : number < 2 ^ digits) (h1 : 1 ≤ digits) :
    binary number digits = some (msbDigits number.toNat digits)
      ∧ (msbDigits number.toNat digits).length = digits
      ∧ (∀ x ∈ msbDigits number.toNat digits, x ≤ 1)
      ∧ Nat.ofDigits 2 (msbDigits number.toNat digits).reverse = number.toNat
      ∧ binary 5 4 = some [0, 1, 0, 1]
      ∧ binary 0 1 = some [0]
      ∧ binary 2 1 = none
      ∧ ∀ z : ℤ, z < 0 ∨ (2 : ℤ) ^ digits ≤ z → binary z digits = none := by
  have hc : (number.toNat : ℤ) = number := Int.toNat_of_nonneg h0
  have hlt : number.toNat < 2 ^ digits := by
    have hzc : (number.toNat : ℤ) < (2 : ℤ) ^ digits := by rw [hc]; exact h2
    exact_mod_cast hzc
  refine ⟨?_, msbDigits_length _ _, msbDigits_le_one _ _,
    ofDigits_msbDigits _ _ hlt h1, by decide, by decide, by decide, ?_⟩
  · rw [binary, if_pos ⟨h0, h2⟩, binaryFn_eq_msbDigits _ _ hlt h1]
  · intro z hz
    rw [binary, if_neg]
    rintro ⟨hz0, hz2⟩
    rcases hz with hz | hz
    · omega
    · exact absurd hz2 (not_lt.mpr hz)

/-- Witness for C5's amended theorem at `number = 5`, `digits = 4`. -/
theorem C5_witness :
    binary 5 4 = some (msbDigits (5 : ℤ).toNat 4)
      ∧ (msbDigits (5 : ℤ).toNat 4).length = 4 := by
  obtain ⟨h1, h2, _⟩ := C5_binary 5 4 (by decide) (by decide) (by decide)
  exact ⟨h1, h2⟩

/-- C2: for a valid rule number and odd `n`, the mapping sends the `n`-digit
binary tuple of every pattern index `i < 2^n` (most-significant digit first)
to digit `i` of the `2^n`-digit binary representation of the rule number,
counted from the most-significant end; in particular Rule 60 with `n = 3`
maps `(1,1,0)` to `0` and `(0,1,1)` to `1`. -/
theorem C2_mapping (number n : ℕ) (hnum : number < 2 ^ 2 ^ n)
    (hodd : n % 2 = 1) :
    (∀ i, i < 2 ^ n →
      dictLookup (Rule.get_mapping ⟨number, n⟩) (msbDigits i n)
        = some ((msbDigits number (2 ^ n)).getD i 0))
    ∧ dictLookup (Rule.get_mapping ⟨60, 3⟩) [1, 1, 0] = some 0
    ∧ dictLookup (Rule.get_mapping ⟨60, 3⟩) [0, 1, 1] = some 1 := by
  refine ⟨?_, by decide, by decide⟩
  intro i hi
  have hv : (msbDigits number (2 ^ n)).getD i 0
      = number / 2 ^ (2 ^ n - 1 - i) % 2 := by
    rw [List.getD_eq_getElem?_getD,
      List.getElem?_eq_getElem (by rw [msbDigits_length]; exact hi),
      Option.getD_some, msbDigits_getElem]
  rw [hv]
  exact dictLookup_get_mapping ⟨number, n⟩ hnum hodd i hi

/-- Witness for C2 at rule number 60, `n = 3`, pattern index 6. -/
theorem C2_witness :
    dictLookup (Rule.get_mapping ⟨60, 3⟩) (msbDigits 6 3)
      = some ((msbDigits 60 (2 ^ 3)).getD 6 0) :=
  (C2_mapping 60 3 (by decide) (by decide)).1 6 (by decide)

/-- C6: for non-negative `number` and positive `n`, constructing a `Rule`
fails when `number ≥ 2 ^ (2 ^ n)` or `n` is even, and otherwise succeeds and
stores exactly the given `number` and `n`. -/
theorem C6_rule_make (number n : ℕ) (_hn : 0 < n) :
    (2 ^ 2 ^ n ≤ number ∨ n % 2 = 0 → Rule.make number n = none)
    ∧ (number < 2 ^ 2 ^ n ∧ n % 2 = 1 →
        Rule.make number n = some ⟨number, n⟩) := by
  constructor
  · intro h
    rw [Rule.make, if_neg]
    rintro ⟨h1, h2⟩
    rcases h with h | h
    · omega
    · omega
  · intro h
    rw [Rule.make, if_pos h]

/-- Witness for C6 at `number = 60`, `n = 3`. -/
theorem C6_witness :
    (0 : ℕ) < 3 ∧ Rule.make 60 3 = some ⟨60, 3⟩ :=
  ⟨by decide, (C6_rule_make 60 3 (by decide)).2 (by decide)⟩

/-- C4: for a valid rule (odd `n`, `number < 2 ^ (2 ^ n)`), `get_next_cell`
fails when the input tuple's length differs from `n`, and on every tuple of
exactly `n` binary values the mapping lookup never misses and the mapped
output value is returned. -/
theorem C4_get_next_cell (number n : ℕ) (hnum : number < 2 ^ 2 ^ n)
    (hodd : n % 2 = 1) :
    (∀ l : List ℕ, l.length ≠ n → Rule.get_next_cell ⟨number, n⟩ l = none)
    ∧ ∀ l : List ℕ, l.length = n → (∀ x ∈ l, x ≤ 1) →
        ∃ v, Rule.get_next_cell ⟨number, n⟩ l
            = dictLookup (Rule.get_mapping ⟨number, n⟩) l
          ∧ Rule.get_next_cell ⟨number, n⟩ l = some v := by
  constructor
  · intro l hl
    exact get_next_cell_of_length_ne ⟨number, n⟩ l hl
  · intro l hlen hbin
    obtain ⟨v, hv, _⟩ := get_next_cell_total ⟨number, n⟩ hnum hodd l hlen hbin
    refine ⟨v, ?_, hv⟩
    rw [Rule.get_next_cell, if_pos hlen]

/-- Witness for C4 at rule 60, `n = 3`: a length-4 tuple fails, and the
binary tuple `(1,1,0)` is looked up successfully. -/
theorem C4_witness :
    Rule.get_next_cell ⟨60, 3⟩ [1, 1, 0, 0] = none
      ∧ ∃ v, Rule.get_next_cell ⟨60, 3⟩ [1, 1, 0]
          = dictLookup (Rule.get_mapping ⟨60, 3⟩) [1, 1, 0]
        ∧ Rule.get_next_cell ⟨60, 3⟩ [1, 1, 0] = some v := by
  obtain ⟨h1, h2⟩ := C4_get_next_cell 60 3 (by decide) (by decide)
  exact ⟨h1 [1, 1, 0, 0] (by decide), h2 [1, 1, 0] (by decide) (by decide)⟩

/-- C1: for a ring of positive size with binary cells and a valid rule,
`next_generation` replaces the whole cell sequence at once with a sequence of
the same length whose entry at each position `i` is the rule mapping applied
to the tuple of pre-update cells at indices `i - margin, …, i + margin`
taken modulo the size (with `margin = n / 2`); for `n = 3` the neighborhood
of position 0 has cell `size - 1` as its left neighbor and the neighborhood
of position `size - 1` has cell 0 as its right neighbor. -/
theorem C1_next_generation (ca : CellularAutomata) (r : Rule)
    (hS : 0 < ca.size) (hlen : ca.cells.length = ca.size)
    (hbin : ∀ x ∈ ca.cells, x ≤ 1)
    (hnum : r.number < 2 ^ 2 ^ r.n) (hodd : r.n % 2 = 1) :
    ∃ nc, ca.next_generation r = some { ca with cells := nc }
      ∧ nc.length = ca.size
      ∧ (∀ i, i < ca.size →
          dictLookup r.get_mapping
              (CellularAutomata.interval_cells ca.cells ca.size (r.n / 2) i)
            = some (nc.getD i 0))
      ∧ (∀ i k : ℕ, i < ca.size → k < 2 * (r.n / 2) + 1 →
          (CellularAutomata.interval_cells ca.cells ca.size (r.n / 2) i).getD k 0
            = ca.cells.getD (CellularAutomata.wrapIdx ca.size
                ((i : ℤ) - ((r.n / 2 : ℕ) : ℤ) + (k : ℤ))) 0)
      ∧ (r.n = 3 →
          (CellularAutomata.interval_cells ca.cells ca.size 1 0).getD 0 0
              = ca.cells.getD (ca.size - 1) 0
            ∧ (CellularAutomata.interval_cells ca.cells ca.size 1
                (ca.size - 1)).getD 2 0
              = ca.cells.getD 0 0) := by
  obtain ⟨nc, hng, hnclen, _, hpt⟩ :=
    CellularAutomata.next_generation_spec ca r hnum hodd hlen hbin
  refine ⟨nc, hng, hnclen, ?_, ?_, ?_⟩
  · intro i hi
    have h := hpt i hi
    have hilen : (CellularAutomata.interval_cells ca.cells ca.size
        (r.n / 2) i).length = r.n := by
      rw [CellularAutomata.interval_cells_length]; omega
    rw [Rule.get_next_cell, if_pos hilen] at h
    exact h
  · intro i k _ hk
    exact interval_cells_getD ca.cells ca.size (r.n / 2) i k hk
  · intro _
    constructor
    · rw [interval_cells_getD ca.cells ca.size 1 0 0 (by norm_num)]
      have earg : ((0 : ℕ) : ℤ) - ((1 : ℕ) : ℤ) + ((0 : ℕ) : ℤ) = -1 := by
        norm_num
      rw [earg, CellularAutomata.wrapIdx_neg_one ca.size hS]
    · rw [interval_cells_getD ca.cells ca.size 1 (ca.size - 1) 2 (by norm_num)]
      have earg : ((ca.size - 1 : ℕ) : ℤ) - ((1 : ℕ) : ℤ) + ((2 : ℕ) : ℤ)
          = (ca.size : ℤ) := by omega
      rw [earg, CellularAutomata.wrapIdx_self ca.size]

/-- Witness for C1 on the size-3 ring `[1,0,0]` under rule 60. -/
theorem C1_witness :
    ∃ nc, CellularAutomata.next_generation ⟨3, [1, 0, 0]⟩ ⟨60, 3⟩
      = some { size := 3, cells := nc } := by
  obtain ⟨nc, h1, _⟩ := C1_next_generation ⟨3, [1, 0, 0]⟩ ⟨60, 3⟩
    (by decide) (by decide) (by decide) (by decide) (by decide)
  exact ⟨nc, h1⟩

/-- C7: on a ring of positive size, `init_single` with no explicit position
sets exactly the cell at `size / 2` to one and every other cell to zero; with
an explicit in-range position `p` it sets exactly cell `p`; and with an
explicit out-of-range position it fails. -/
theorem C7_init_single (ca : CellularAutomata) (hS : 0 < ca.size) :
    (∃ nc, ca.init_single none = some { ca with cells := nc }
      ∧ nc.length = ca.size
      ∧ ∀ i, i < ca.size → nc.getD i 0 = if i = ca.size / 2 then 1 else 0)
    ∧ (∀ p : ℤ, 0 ≤ p → p < (ca.size : ℤ) →
        ∃ nc, ca.init_single (some p) = some { ca with cells := nc }
          ∧ nc.length = ca.size
          ∧ ∀ i, i < ca.size → nc.getD i 0 = if (i : ℤ) = p then 1 else 0)
    ∧ ∀ p : ℤ, p < 0 ∨ (ca.size : ℤ) ≤ p → ca.init_single (some p) = none := by
  have hset : ∀ q i : ℕ, q < ca.size → i < ca.size →
      ((List.replicate ca.size 0).set q 1).getD i 0 = if i = q then 1 else 0 := by
    intro q i hq hi
    rw [List.getD_eq_getElem?_getD,
      List.getElem?_eq_getElem
        (by rw [List.length_set, List.length_replicate]; exact hi),
      Option.getD_some, List.getElem_set]
    by_cases h : q = i
    · subst h
      rw [if_pos rfl, if_pos rfl]
    · rw [if_neg h, if_neg fun hh => h hh.symm, List.getElem_replicate]
  refine ⟨⟨(List.replicate ca.size 0).set (ca.size / 2) 1, rfl, ?_, ?_⟩, ?_, ?_⟩
  · rw [List.length_set, List.length_replicate]
  · intro i hi
    exact hset (ca.size / 2) i (Nat.div_lt_self hS (by norm_num)) hi
  · intro p hp0 hpS
    refine ⟨(List.replicate ca.size 0).set p.toNat 1, ?_, ?_, ?_⟩
    · show (if 0 ≤ p ∧ p < (ca.size : ℤ) then
          some ({ ca with cells := (List.replicate ca.size 0).set p.toNat 1 }
            : CellularAutomata)
        else none)
        = some ({ ca with cells := (List.replicate ca.size 0).set p.toNat 1 }
            : CellularAutomata)
      rw [if_pos ⟨hp0, hpS⟩]
    · rw [List.length_set, List.length_replicate]
    · intro i hi
      rw [hset p.toNat i (by omega) hi]
      by_cases h : (i : ℤ) = p
      · rw [if_pos (by omega), if_pos h]
      · rw [if_neg (by omega), if_neg h]
  · intro p hp
    show (if 0 ≤ p ∧ p < (ca.size : ℤ) then
        some ({ ca with cells := (List.replicate ca.size 0).set p.toNat 1 }
          : CellularAutomata)
      else none) = none
    rw [if_neg]
    rintro ⟨h1, h2⟩
    rcases hp with hp | hp
    · omega
    · omega

/-- Witness for C7 on a ring of size 5. -/
theorem C7_witness :
    ∃ nc, (CellularAutomata.make 5).init_single none
      = some { CellularAutomata.make 5 with cells := nc } := by
  obtain ⟨⟨nc, h1, _⟩, _, _⟩ := C7_init_single (CellularAutomata.make 5) (by decide)
  exact ⟨nc, h1⟩

/-- C8: whenever a valid rule maps the all-zero neighborhood tuple to 0,
`next_generation` sends the all-zero ring to the all-zero ring. -/
theorem C8_zero_fixed_point (S : ℕ) (r : Rule)
    (_hnum : r.number < 2 ^ 2 ^ r.n) (hodd : r.n % 2 = 1)
    (hzero : dictLookup r.get_mapping (List.replicate r.n 0) = some 0) :
    CellularAutomata.next_generation ⟨S, List.replicate S 0⟩ r
      = some ⟨S, List.replicate S 0⟩ := by
  have hodd2 : 2 * (r.n / 2) + 1 = r.n := by omega
  have hint : ∀ i : ℕ,
      CellularAutomata.interval_cells (List.replicate S 0) S (r.n / 2) i
        = List.replicate r.n 0 := by
    intro i
    apply List.ext_getElem
    · rw [CellularAutomata.interval_cells_length, List.length_replicate, hodd2]
    · intro j h1 h2
      rw [CellularAutomata.interval_cells_getElem, List.getElem_replicate,
        replicate_getD_zero]
  have hcell : ∀ i : ℕ,
      r.get_next_cell (CellularAutomata.interval_cells
        (List.replicate S 0) S (r.n / 2) i) = some 0 := by
    intro i
    rw [hint i, Rule.get_next_cell, if_pos (List.length_replicate _ _)]
    exact hzero
  have hseq : ∀ k : ℕ,
      CellularAutomata.seqOption (List.replicate k (some 0))
        = some (List.replicate k 0) := by
    intro k
    induction k with
    | zero => rfl
    | succ t ih =>
      rw [List.replicate_succ, List.replicate_succ]
      have e : CellularAutomata.seqOption
            (some 0 :: List.replicate t (some 0))
          = (CellularAutomata.seqOption (List.replicate t (some 0))).map
              fun l => 0 :: l := rfl
      rw [e, ih]
      rfl
  have hmap : ((List.range S).map fun i =>
      r.get_next_cell (CellularAutomata.interval_cells
        (List.replicate S 0) S (r.n / 2) i))
      = List.replicate S (some 0) := by
    rw [List.map_congr_left fun i _ => hcell i, List.map_const',
      List.length_range]
  show (CellularAutomata.seqOption ((List.range S).map fun i =>
      r.get_next_cell (CellularAutomata.interval_cells
        (List.replicate S 0) S (r.n / 2) i))).map
      (fun next_cells => ({ size := S, cells := next_cells } :
        CellularAutomata))
    = some ⟨S, List.replicate S 0⟩
  rw [hmap, hseq S]
  rfl

/-- Witness for C8 with rule 60 on a ring of size 4. -/
theorem C8_witness :
    CellularAutomata.next_generation ⟨4, List.replicate 4 0⟩ ⟨60, 3⟩
      = some ⟨4, List.replicate 4 0⟩ :=
  C8_zero_fixed_point 4 ⟨60, 3⟩ (by decide) (by decide) (by decide)

/-- C9: assigning a positive `v` to the size property sets the size to `v`
and resets the cells to exactly `v` zeros, discarding prior content. -/
theorem C9_set_size (ca : CellularAutomata) (v : ℕ) (_hv : 0 < v) :
    (ca.set_size v).size = v ∧ (ca.set_size v).cells = List.replicate v 0 :=
  ⟨rfl, rfl⟩

/-- Witness for C9: resizing a size-3 ring holding ones to size 4. -/
theorem C9_witness :
    ((⟨3, [1, 1, 1]⟩ : CellularAutomata).set_size 4).size = 4
      ∧ ((⟨3, [1, 1, 1]⟩ : CellularAutomata).set_size 4).cells
        = List.replicate 4 0 :=
  C9_set_size ⟨3, [1, 1, 1]⟩ 4 (by decide)

/-- C10: every state-changing operation — construction, `init_zeroes`,
`init_single`, `randomize`, and `next_generation` with a valid rule on a
well-formed state — leaves the cells as a sequence of exactly `size` values
each equal to 0 or 1; `next_generation` in particular succeeds, keeps the
length, and writes only binary mapping outputs. -/
theorem C10_invariant (S : ℕ) (ca : CellularAutomata) (r : Rule)
    (bits : ℕ → Bool) (p : Option ℤ)
    (hnum : r.number < 2 ^ 2 ^ r.n) (hodd : r.n % 2 = 1)
    (hlen : ca.cells.length = ca.size) (hbin : ∀ x ∈ ca.cells, x ≤ 1) :
    ((CellularAutomata.make S).cells.length = (CellularAutomata.make S).size
      ∧ ∀ x ∈ (CellularAutomata.make S).cells, x ≤ 1)
    ∧ (ca.init_zeroes.cells.length = ca.init_zeroes.size
      ∧ ∀ x ∈ ca.init_zeroes.cells, x ≤ 1)
    ∧ (∀ ca2, ca.init_single p = some ca2 →
        ca2.cells.length = ca2.size ∧ ∀ x ∈ ca2.cells, x ≤ 1)
    ∧ ((ca.randomize bits).cells.length = (ca.randomize bits).size
      ∧ ∀ x ∈ (ca.randomize bits).cells, x ≤ 1)
    ∧ (∀ ca2, ca.next_generation r = some ca2 →
        ca2.cells.length = ca2.size ∧ ∀ x ∈ ca2.cells, x ≤ 1)
    ∧ ∃ ca2, ca.next_generation r = some ca2 := by
  obtain ⟨nc, hng, hnclen, hncbin, _⟩ :=
    CellularAutomata.next_generation_spec ca r hnum hodd hlen hbin
  refine ⟨⟨?_, ?_⟩, ⟨?_, ?_⟩, ?_, ⟨?_, ?_⟩, ?_, ⟨_, hng⟩⟩
  · show (List.replicate S 0).length = S
    exact List.length_replicate S 0
  · show ∀ x ∈ List.replicate S 0, x ≤ 1
    intro x hx
    rw [List.eq_of_mem_replicate hx]
    exact Nat.zero_le 1
  · exact List.length_replicate ca.size 0
  · intro x hx
    rw [List.eq_of_mem_replicate hx]
    exact Nat.zero_le 1
  · intro ca2 h
    have hmem1 : ∀ (q : ℕ) (x : ℕ),
        x ∈ (List.replicate ca.size 0).set q 1 → x ≤ 1 := by
      intro q x hx
      rcases List.mem_or_eq_of_mem_set hx with hx | hx
      · rw [List.eq_of_mem_replicate hx]
        exact Nat.zero_le 1
      · omega
    match p with
    | none =>
      have hca2 : ca2
          = { ca with cells := (List.replicate ca.size 0).set (ca.size / 2) 1 } :=
        (Option.some_inj.mp h).symm
      subst hca2
      refine ⟨?_, fun x hx => hmem1 _ x hx⟩
      show ((List.replicate ca.size 0).set (ca.size / 2) 1).length = ca.size
      rw [List.length_set, List.length_replicate]
    | some q =>
      by_cases hq : 0 ≤ q ∧ q < (ca.size : ℤ)
      · have h2 : (if 0 ≤ q ∧ q < (ca.size : ℤ) then
              some ({ ca with cells := (List.replicate ca.size 0).set q.toNat 1 }
                : CellularAutomata)
            else none) = some ca2 := h
        rw [if_pos hq] at h2
        have hca2 : ca2
            = { ca with cells := (List.replicate ca.size 0).set q.toNat 1 } :=
          (Option.some_inj.mp h2).symm
        subst hca2
        refine ⟨?_, fun x hx => hmem1 _ x hx⟩
        show ((List.replicate ca.size 0).set q.toNat 1).length = ca.size
        rw [List.length_set, List.length_replicate]
      · have h2 : (if 0 ≤ q ∧ q < (ca.size : ℤ) then
              some ({ ca with cells := (List.replicate ca.size 0).set q.toNat 1 }
                : CellularAutomata)
            else none) = some ca2 := h
        rw [if_neg hq] at h2
        exact absurd h2 (by simp)
  · show ((List.range ca.size).map fun i => if bits i then 1 else 0).length
      = ca.size
    rw [List.length_map, List.length_range]
  · intro x hx
    have hx2 : x ∈ (List.range ca.size).map fun i => if bits i then 1 else 0 := hx
    rw [List.mem_map] at hx2
    obtain ⟨i, _, rfl⟩ := hx2
    by_cases h : bits i
    · rw [if_pos h]
    · rw [if_neg h]
      exact Nat.zero_le 1
  · intro ca2 h
    rw [hng] at h
    have hca2 : ca2 = { ca with cells := nc } := (Option.some_inj.mp h).symm
    subst hca2
    exact ⟨hnclen, hncbin⟩

/-- Witness for C10 on the size-2 ring `[1,0]` with rule 60, the constant
random stream, and the default seed position. -/
theorem C10_witness :
    ∃ ca2, CellularAutomata.next_generation ⟨2, [1, 0]⟩ ⟨60, 3⟩ = some ca2 := by
  obtain ⟨_, _, _, _, _, hex⟩ := C10_invariant 2 ⟨2, [1, 0]⟩ ⟨60, 3⟩
    (fun _ => true) none (by decide) (by decide) (by decide) (by decide)
  exact hex

/-- C3, counterexample to the claim as stated: with `iteration_limit = 1`
(rule 60, ring of size 4, enough fuel) the loop performs two advances — the
emitted trace has length 2 — because it breaks only once the iteration
counter strictly exceeds the limit.  The claim says it stops after exactly
one advance. -/
theorem C3_counterexample :
    (CellularAutomata.run (CellularAutomata.make 4) ⟨60, 3⟩ (some 1) 5).map
        (fun p => p.1.length) = some 2
      ∧ (2 : ℕ) ≠ 1 := by
  exact ⟨by decide, by decide⟩

/-- C3, amended: `run` repeatedly emits the current state then advances one
generation; with a positive `iteration_limit` it stops after exactly
`iteration_limit + 1` advances (one emission per advance); an omitted limit
defaults to `size // 2`; a non-positive limit never terminates (no fuel bound
makes the loop break). -/
theorem C3_run (ca : CellularAutomata) (r : Rule)
    (hnum : r.number < 2 ^ 2 ^ r.n) (hodd : r.n % 2 = 1)
    (hlen : ca.cells.length = ca.size) (hbin : ∀ x ∈ ca.cells, x ≤ 1) :
    (∀ fuel, ca.run r none fuel = ca.run r (some ((ca.size / 2 : ℕ) : ℤ)) fuel)
    ∧ (∀ m : ℕ, 0 < m → ∀ fuel, m + 1 ≤ fuel →
        ∃ tr fin, ca.run r (some (m : ℤ)) fuel = some (tr, fin)
          ∧ tr.length = m + 1)
    ∧ (∀ L : ℤ, L ≤ 0 → ∀ fuel, ca.run r (some L) fuel = none) := by
  refine ⟨fun fuel => rfl, ?_, ?_⟩
  · intro m hm fuel hfuel
    obtain ⟨tr, fin, htr⟩ := CellularAutomata.runAux_some r hnum hodd m hm
      fuel 0 ca hlen hbin (by omega) (by omega)
    refine ⟨tr, fin, htr, ?_⟩
    have hl := CellularAutomata.runAux_length r m hm fuel ca 0 tr fin
      (by omega) htr
    omega
  · intro L hL fuel
    exact CellularAutomata.runAux_none_of_nonpos r L hL fuel ca 0

/-- Witness for C3's amended theorem: rule 60, all-zero ring of size 4,
limit 1, fuel 5. -/
theorem C3_witness :
    ∃ tr fin, CellularAutomata.run (CellularAutomata.make 4) ⟨60, 3⟩
        (some ((1 : ℕ) : ℤ)) 5 = some (tr, fin) ∧ tr.length = 1 + 1 := by
  obtain ⟨_, h2, _⟩ := C3_run (CellularAutomata.make 4) ⟨60, 3⟩
    (by decide) (by decide) (by decide) (by decide)
  exact h2 1 (by decide) 5 (by decide)

end CellAuto
